import Mathlib

/-
Verification of the token-heuristic CFG pipeline.

The development below is a shallow embedding of the three core stages of
the repository:
  build_listM   (cfg_builder.py)  : source lines -> ordered label sequence
  generate_cfg  (cfg_builder.py)  : label sequence -> (nodes, edges, list3)
  find_all_paths (paths_finder.py): adjacency -> all start-to-end paths
together with the cyclomatic-complexity arithmetic of gui.py.

A Python source line is embedded as a list of characters; a source text as
a list of lines (the result of source.splitlines()).  Labels are strings.
-/

namespace CFG

/-- Does the second list start with the first one?  Embeds Python
str.startswith on character lists. -/
def startsWithL : List Char → List Char → Bool
  | [], _ => true
  | _ :: _, [] => false
  | p :: ps, c :: cs => p = c && startsWithL ps cs

/-- Substring test: embeds the Python expression needle in haystack. -/
def containsL : List Char → List Char → Bool
  | n, [] => n.isEmpty
  | n, c :: t => startsWithL n (c :: t) || containsL n t

/-- Characters stripped by Python str.strip() (ASCII whitespace). -/
def isPySpace (c : Char) : Bool :=
  c = ' ' || c = '\t' || c = '\n' || c = '\x0d' || c = '\x0b' || c = '\x0c'

/-- Embeds Python line.strip(). -/
def stripL (l : List Char) : List Char :=
  ((l.dropWhile isPySpace).reverse.dropWhile isPySpace).reverse

/-- Embeds line.replace("\t", " " * 4). -/
def expandTabs (l : List Char) : List Char :=
  l.flatMap (fun c => if c = '\t' then [' ', ' ', ' ', ' '] else [c])

/-- cfg_builder.indent_level: count leading spaces, tabs as 4 spaces
(len(line) - len(line.lstrip(" ")) after tab expansion). -/
def indent_level (l : List Char) : Nat :=
  ((expandTabs l).takeWhile (fun c => c = ' ')).length

/-- cfg_builder.KEYWORDS (print removed, as in the source). -/
def KEYWORDS : List String := ["if", "elif", "else", "for", "while"]

/-- cfg_builder.extract_keyword.  The Python function also returns the
remainder of the line, which build_listM discards; only the keyword is
modelled.  The scan tries the keywords in the fixed KEYWORDS order and
returns the first kw with s.startswith(kw) on the stripped line. -/
def extract_keyword (line : List Char) : Option String :=
  KEYWORDS.find? (fun kw => startsWithL kw.data (stripL line))

/-- Main label of a keyword occurrence: f"{kw}{count}" when not nested,
f"{kw}sp{count}" when nested (build_listM label construction). -/
def mkLabel (kw : String) (nested : Bool) (c : Nat) : String :=
  if !nested then kw ++ Nat.repr c else kw ++ "sp" ++ Nat.repr c

/-- Paired expression label of an if or elif occurrence:
f"{kw}exp{count}" or f"{kw}spexp{count}" (build_listM). -/
def mkExp (kw : String) (nested : Bool) (c : Nat) : String :=
  if !nested then kw ++ "exp" ++ Nat.repr c else kw ++ "spexp" ++ Nat.repr c

/-- Labels appended by one recognized keyword occurrence in build_listM:
if and elif append the label and its paired expression label; else, for
and while append a single label. -/
def emitLabels (kw : String) (nested : Bool) (c : Nat) : List String :=
  if kw = "if" || kw = "elif" then [mkLabel kw nested c, mkExp kw nested c]
  else [mkLabel kw nested c]

/-- build_listM stack popping: while stack and lvl <= stack[-1][0]:
stack.pop().  The list head is the Python stack top. -/
def popGE (lvl : Nat) : List (Nat × String) → List (Nat × String)
  | [] => []
  | (d, l) :: rest => if lvl ≤ d then popGE lvl rest else (d, l) :: rest

/-- One iteration of the build_listM per-line loop: returns the new
counter, the new stack and the labels appended for this line.  A blank
line is skipped before the stack is popped; a non-blank line first pops
the stack, then (only if a keyword matched) increments the counter,
appends labels and pushes (lvl, label). -/
def buildStep (count : Nat) (stack : List (Nat × String)) (line : List Char) :
    Nat × List (Nat × String) × List String :=
  if stripL line = [] then (count, stack, [])
  else
    let lvl := indent_level line
    let stack1 := popGE lvl stack
    let nested := !stack1.isEmpty
    match extract_keyword line with
    | none => (count, stack1, [])
    | some kw =>
        (count + 1, (lvl, mkLabel kw nested (count + 1)) :: stack1,
          emitLabels kw nested (count + 1))

/-- The build_listM loop over all lines, threading counter and stack and
returning (labels, final counter, final stack). -/
def buildAuxS : List (List Char) → Nat → List (Nat × String) →
    List String × Nat × List (Nat × String)
  | [], c, st => ([], c, st)
  | l :: rest, c, st =>
      let r := buildStep c st l
      let r2 := buildAuxS rest r.1 r.2.1
      (r.2.2 ++ r2.1, r2.2.1, r2.2.2)

/-- cfg_builder.build_listM: run the per-line loop with count = 0 and an
empty stack, then insert "start" in front and append "end". -/
def build_listM (lines : List (List Char)) : List String :=
  "start" :: (buildAuxS lines 0 []).1 ++ ["end"]

/-- The lines of a source that match a recognized keyword.  A blank line
never matches (every keyword is nonempty), so this is exactly the set of
lines on which build_listM increments its counter. -/
def keywordLines (lines : List (List Char)) : List (List Char) :=
  lines.filter (fun l => (extract_keyword l).isSome)

/-- Order-preserving deduplication with an explicit seen accumulator;
embeds list(dict.fromkeys(..)) and the seen-set edge deduplication. -/
def dedupKeys {α : Type} [DecidableEq α] : List α → List α → List α
  | [], _ => []
  | x :: xs, seen =>
      if x ∈ seen then dedupKeys xs seen else x :: dedupKeys xs (x :: seen)

/-- cfg_builder.create_nodes: list(dict.fromkeys(listM)). -/
def create_nodes (listM : List String) : List String :=
  dedupKeys listM []

/-- cfg_builder._is_plain_if: re.fullmatch of if followed by digits. -/
def _is_plain_if (t : String) : Bool :=
  match t.data with
  | 'i' :: 'f' :: rest => !rest.isEmpty && rest.all Char.isDigit
  | _ => false

/-- cfg_builder._is_plain_elif: re.fullmatch of elif followed by digits. -/
def _is_plain_elif (t : String) : Bool :=
  match t.data with
  | 'e' :: 'l' :: 'i' :: 'f' :: rest => !rest.isEmpty && rest.all Char.isDigit
  | _ => false

/-- cfg_builder._is_plain_else: re.fullmatch of else followed by digits. -/
def _is_plain_else (t : String) : Bool :=
  match t.data with
  | 'e' :: 'l' :: 's' :: 'e' :: rest => !rest.isEmpty && rest.all Char.isDigit
  | _ => false

/-- cfg_builder._is_plain_exp: re.fullmatch of ifexp or elifexp followed
by digits. -/
def _is_plain_exp (t : String) : Bool :=
  match t.data with
  | 'i' :: 'f' :: 'e' :: 'x' :: 'p' :: rest =>
      !rest.isEmpty && rest.all Char.isDigit
  | 'e' :: 'l' :: 'i' :: 'f' :: 'e' :: 'x' :: 'p' :: rest =>
      !rest.isEmpty && rest.all Char.isDigit
  | _ => false

/-- cfg_builder._is_branch_kw: a plain elif, a plain else, or "end". -/
def _is_branch_kw (t : String) : Bool :=
  _is_plain_elif t || _is_plain_else t || t = "end"

/-- Forward scan of the generate_cfg loops: first index k with
start <= k < start + rem such that p holds at listM[k].  Called with
rem = listM.length - start this is the Python scan while j < len(listM)
(each iteration advances j by one). -/
def scanFrom (listM : List String) (p : String → Bool) : Nat → Nat → Option Nat
  | 0, _ => none
  | rem + 1, j => if p (listM.getD j "") then some j else scanFrom listM p rem (j + 1)

/-- Mutable state of the generate_cfg walk: accumulated edges, the
bookkeeping list3, and the loop-range markers st, en (while) and
stfor, enfor (for). -/
structure GenSt where
  edges : List (String × String)
  list3 : List String
  st : Option Nat
  en : Option Nat
  stfor : Option Nat
  enfor : Option Nat

/-- Python st is not None and en is not None and (st <= i <= en). -/
def inRange (st en : Option Nat) (i : Nat) : Bool :=
  match st, en with
  | some a, some b => a ≤ i && i ≤ b
  | _, _ => false

/-- The data produced by one iteration of the generate_cfg while loop:
the edges and list3 entries appended, and the new values of the four
loop-range markers. -/
structure StepDelta where
  newEdges : List (String × String)
  newList3 : List String
  st : Option Nat
  en : Option Nat
  stfor : Option Nat
  enfor : Option Nat

/-- One iteration of the generate_cfg while loop at index i (the source
guarantees 1 <= i < len(listM) - 1 at every call), presented as the data
appended to the accumulated state.  nxtS is listM[i+1]; inside the loop
it always exists, and Python truthiness of nxt (None or the empty
string) is embedded as the test nxtS = "" on getD with default "".  The
branches appear in the exact order of the source. -/
def genStepD (listM : List String) (i : Nat)
    (st en stfor enfor : Option Nat) : StepDelta :=
  let cur := listM.getD i ""
  let nxtS := listM.getD (i + 1) ""
  -- exp nodes do not fall through: connected to end when their branch
  -- header is processed
  if _is_plain_exp cur then
    { newEdges := [], newList3 := [], st := st, en := en,
      stfor := stfor, enfor := enfor }
  -- ifN / elifN followed by its exp node
  else if (_is_plain_if cur || _is_plain_elif cur) && !(nxtS = "")
      && _is_plain_exp nxtS then
    let nb := scanFrom listM _is_branch_kw (listM.length - (i + 2)) (i + 2)
    { newEdges := [(cur, nxtS)] ++
        (match nb with
         | some j => [(cur, listM.getD j "")]
         | none => []) ++ [(nxtS, "end")],
      newList3 := [cur, nxtS] ++
        (match nb with
         | some j => [listM.getD j ""]
         | none => []),
      st := st, en := en, stfor := stfor, enfor := enfor }
  -- elseN -> end
  else if _is_plain_else cur then
    { newEdges := [(cur, "end")], newList3 := [cur], st := st, en := en,
      stfor := stfor, enfor := enfor }
  -- forsp tokens
  else if startsWithL "forsp".data cur.data then
    { newEdges := [(cur, cur)] ++
        (if containsL "for".data (listM.getD (i - 1) "").data then
          [(cur, listM.getD (i - 1) "")]
        else if !(nxtS = "") && containsL "sp".data nxtS.data then
          [(cur, nxtS)]
        else if inRange st en i then [(cur, "f")]
        else if !(nxtS = "") then [(cur, nxtS)] else []),
      newList3 := [], st := st, en := en, stfor := stfor, enfor := enfor }
  -- non-nested for
  else if startsWithL "for".data cur.data && !containsL "sp".data cur.data then
    let selfE := if !(nxtS = "") && !containsL "sp".data nxtS.data then
      [(cur, cur)] else []
    match scanFrom listM (fun t => !containsL "sp".data t.data)
        (listM.length - (i + 1)) (i + 1) with
    | some k =>
        { newEdges := selfE ++ [(cur, listM.getD k "")] ++
            (if !(nxtS = "") && !(listM.getD (i + 1) "" = listM.getD k "") then
              [(cur, listM.getD (i + 1) "")] else []),
          newList3 := [], st := st, en := en, stfor := some i,
          enfor := some k }
    | none =>
        { newEdges := selfE, newList3 := [], st := st, en := en,
          stfor := some i, enfor := enfor }
  -- non-nested while
  else if startsWithL "while".data cur.data && !containsL "sp".data cur.data then
    let selfE := if !(nxtS = "") && !containsL "sp".data nxtS.data then
      [(cur, cur)] else []
    match scanFrom listM (fun t => !containsL "sp".data t.data)
        (listM.length - (i + 1)) (i + 1) with
    | some k =>
        { newEdges := selfE ++ [(cur, listM.getD k "")] ++
            (if !(nxtS = "") && !(listM.getD (i + 1) "" = listM.getD k "") then
              [(cur, listM.getD (i + 1) "")] else []),
          newList3 := [], st := some i, en := some k, stfor := stfor,
          enfor := enfor }
    | none =>
        { newEdges := selfE, newList3 := [], st := some i, en := en,
          stfor := stfor, enfor := enfor }
  -- whilesp tokens
  else if startsWithL "whilesp".data cur.data then
    { newEdges := (if inRange st en i then [(cur, "f")]
         else if !(nxtS = "") then [(cur, nxtS)] else []) ++ [(cur, cur)],
      newList3 := [], st := st, en := en, stfor := stfor, enfor := enfor }
  -- remaining (nested) tokens: minimal default edge to the next label
  else
    { newEdges := if !(nxtS = "") then [(cur, nxtS)] else [],
      newList3 := [], st := st, en := en, stfor := stfor, enfor := enfor }

/-- One iteration of the generate_cfg while loop applied to the
accumulated state. -/
def genStep (listM : List String) (i : Nat) (s : GenSt) : GenSt :=
  let d := genStepD listM i s.st s.en s.stfor s.enfor
  { edges := s.edges ++ d.newEdges, list3 := s.list3 ++ d.newList3,
    st := d.st, en := d.en, stfor := d.stfor, enfor := d.enfor }

/-- The generate_cfg while loop: i starts at 1 and every branch ends with
i += 1, so the loop performs exactly len(listM) - 2 iterations (when that
is positive); rem counts the remaining iterations. -/
def genLoop (listM : List String) : Nat → Nat → GenSt → GenSt
  | 0, _, s => s
  | rem + 1, i, s => genLoop listM rem (i + 1) (genStep listM i s)

/-- cfg_builder.generate_cfg.  Returns (nodes, deduplicated edges, list3).
The Python function also returns a frequency dict built from list3; it is
derived data (the count of each entry of list3) used by no claim and is
not modelled.  The None filter of the deduplication pass is vacuous here
because edges are pairs of strings. -/
def generate_cfg (listM : List String) :
    List String × List (String × String) × List String :=
  let initEdges := if 2 ≤ listM.length then
    [(listM.getD 0 "", listM.getD 1 "")] else []
  let s := genLoop listM (listM.length - 2) 1
    { edges := initEdges, list3 := [], st := none, en := none,
      stfor := none, enfor := none }
  (create_nodes listM, dedupKeys s.edges [], s.list3)

/-- cfg_builder.build_adj_from_edges: a defaultdict(list) in which each
edge (a, b) appends b to d[a].  Keys appear in first-occurrence order of
edge sources; each value list keeps edge order. -/
def build_adj_from_edges (edges : List (String × String)) :
    List (String × List String) :=
  (dedupKeys (edges.map Prod.fst) []).map
    (fun a => (a, (edges.filter (fun e => e.1 = a)).map Prod.snd))

/-- Dictionary lookup d.get(k, []): the value of the first matching key,
or the empty list. -/
def dGet (d : List (String × List String)) (k : String) : List String :=
  match d.find? (fun p => p.1 = k) with
  | some p => p.2
  | none => []

/-- All strings occurring in the adjacency (keys and successors); used
only to measure the recursion of find_all_paths. -/
def allNodes (d : List (String × List String)) : List String :=
  d.flatMap (fun p => p.1 :: p.2)

/-- The inner scan of the find_all_paths cycle branch: walk the successor
list of the revisited node in order; a successor equal to the node itself
(self-loop) stops the scan with no synthetic path; the literal label
"end" stops it producing one. -/
def backScan (succs : List String) (node : String) : Bool :=
  match succs with
  | [] => false
  | i :: rest => if i = node then false else if i = "end" then true else
      backScan rest node

/-- paths_finder.find_all_paths.  The path parameter is extended with the
source first; reaching dest returns the single completed path; otherwise
every successor is either a revisited node (handled by backScan, which
appends path plus [node, "end"] when it fires) or recursed into.  The
recursion terminates because every recursive call moves a node of the
adjacency into the path. -/
def find_all_paths (d : List (String × List String)) (source dest : String)
    (path : List String) : List (List String) :=
  if source = dest then [path ++ [source]]
  else
    (dGet d source).attach.flatMap (fun node =>
      if node.1 ∈ path ++ [source] then
        (if backScan (dGet d node.1) node.1 then
          [(path ++ [source]) ++ [node.1, "end"]] else [])
      else find_all_paths d node.1 dest (path ++ [source]))
termination_by ((allNodes d).toFinset \ (path ++ [source]).toFinset).card
decreasing_by
  rename_i hmem
  have hnode : node.1 ∈ allNodes d := by
    have h2 := node.2
    unfold dGet at h2
    rcases hfind : (d.find? (fun p => p.1 = source)) with _ | p
    · simp only [hfind] at h2; simp at h2
    · simp only [hfind] at h2
      refine List.mem_flatMap.mpr ⟨p, List.mem_of_find?_eq_some hfind, ?_⟩
      exact List.mem_cons_of_mem _ h2
  apply Finset.card_lt_card
  constructor
  · intro x hx
    rw [Finset.mem_sdiff] at hx ⊢
    refine ⟨hx.1, fun hc => hx.2 ?_⟩
    rw [List.mem_toFinset] at hc ⊢
    exact List.mem_append_left _ hc
  · intro hsub
    have hin : node.1 ∈ (allNodes d).toFinset \ (path ++ [source]).toFinset := by
      rw [Finset.mem_sdiff, List.mem_toFinset, List.mem_toFinset]
      exact ⟨hnode, hmem⟩
    have := hsub hin
    rw [Finset.mem_sdiff, List.mem_toFinset] at this
    exact this.2 (by simp)

/-- Executable companion of find_all_paths: the same body with an
explicit fuel counter in place of the well-founded recursion.  It is
proven below (find_all_paths_eq_fuel) to agree with find_all_paths when
run with enough fuel; it exists only so that concrete runs of the path
enumerator can be evaluated by kernel reduction. -/
def fapFuel : Nat → List (String × List String) → String → String →
    List String → List (List String)
  | 0, _, _, _, _ => []
  | fuel + 1, d, source, dest, path =>
      if source = dest then [path ++ [source]]
      else
        (dGet d source).flatMap (fun node =>
          if node ∈ path ++ [source] then
            (if backScan (dGet d node) node then
              [(path ++ [source]) ++ [node, "end"]] else [])
          else fapFuel fuel d node dest (path ++ [source]))

/-- Numeric value of a digit character. -/
def digitVal (c : Char) : Nat := c.toNat - 48

/-- Value of a most-significant-first digit string. -/
def valDigits (l : List Char) : Nat :=
  l.foldl (fun acc c => acc * 10 + digitVal c) 0

/-- The possible shapes of an edge appended by one genStep iteration at
index i (given 1 <= i and i + 2 <= length, the bounds maintained by the
generate_cfg loop). -/
def NewEdge (listM : List String) (i : Nat) (e : String × String) : Prop :=
  e = (listM.getD i "", listM.getD i "") ∨
  e = (listM.getD i "", listM.getD (i + 1) "") ∨
  e = (listM.getD i "", "end") ∨
  (_is_plain_exp (listM.getD (i + 1) "") = true ∧
    e = (listM.getD (i + 1) "", "end")) ∨
  e = (listM.getD i "", "f") ∨
  (∃ k, i + 1 ≤ k ∧ k < listM.length ∧ e = (listM.getD i "", listM.getD k "")) ∨
  (containsL "for".data (listM.getD (i - 1) "").data = true ∧
    e = (listM.getD i "", listM.getD (i - 1) ""))

/-- gui.CFGToolGUI.on_complexity: V = E - N + 2, floored at 1. -/
def cyclomatic (E N : Nat) : Int :=
  let V : Int := (E : Int) - (N : Int) + 2
  if V < 1 then 1 else V

end CFG

namespace CFG

/-! ### Concrete scenario sources -/

/-- Scenario 1 of the specification: a single non-nested
if/elif/elif/else chain with four branches and two print body lines per
branch. -/
def scenario1Lines : List (List Char) :=
  ["if a:", "    print(1)", "    print(2)", "elif b:", "    print(3)",
   "    print(4)", "elif c:", "    print(5)", "    print(6)", "else:",
   "    print(7)", "    print(8)"].map String.data

/-- Scenario 4 of the specification: a single non-nested while loop with
a body of plain statements. -/
def whileLines : List (List Char) :=
  ["while x < 10:", "    print(x)", "    x = x + 1"].map String.data

/-- A source whose nested while sits inside the recorded while-range of
an earlier non-nested while, firing the rule that emits an edge to the
synthetic marker f. -/
def nestedWhileLines : List (List Char) :=
  ["while a:", "    print(1)", "while b:", "    while c:",
   "        print(2)"].map String.data

/-! ### Generic list lemmas -/

theorem mem_dedupKeys {α : Type} [DecidableEq α] :
    ∀ (l seen : List α) (x : α),
      x ∈ dedupKeys l seen ↔ x ∈ l ∧ x ∉ seen := by
  intro l
  induction l with
  | nil => intro seen x; simp [dedupKeys]
  | cons a t ih =>
      intro seen x
      by_cases ha : a ∈ seen
      · simp only [dedupKeys, if_pos ha, ih]
        constructor
        · rintro ⟨hx, hs⟩; exact ⟨List.mem_cons_of_mem _ hx, hs⟩
        · rintro ⟨hx, hs⟩
          rcases List.mem_cons.mp hx with rfl | hx
          · exact absurd ha hs
          · exact ⟨hx, hs⟩
      · simp only [dedupKeys, if_neg ha]
        constructor
        · intro hx
          rcases List.mem_cons.mp hx with rfl | hx
          · exact ⟨List.mem_cons_self _ _, ha⟩
          · rcases (ih _ _).mp hx with ⟨h1, h2⟩
            refine ⟨List.mem_cons_of_mem _ h1, fun hc => h2 ?_⟩
            exact List.mem_cons_of_mem _ hc
        · rintro ⟨hx, hs⟩
          rcases List.mem_cons.mp hx with rfl | hx
          · exact List.mem_cons_self _ _
          · by_cases hxa : x = a
            · subst hxa; exact List.mem_cons_self _ _
            · refine List.mem_cons_of_mem _ ((ih _ _).mpr ⟨hx, ?_⟩)
              intro hc
              rcases List.mem_cons.mp hc with h | h
              · exact hxa h
              · exact hs h

theorem nodup_dedupKeys {α : Type} [DecidableEq α] :
    ∀ (l seen : List α), (dedupKeys l seen).Nodup := by
  intro l
  induction l with
  | nil => intro seen; simp [dedupKeys]
  | cons a t ih =>
      intro seen
      by_cases ha : a ∈ seen
      · simpa [dedupKeys, if_pos ha] using ih seen
      · rw [dedupKeys, if_neg ha]
        refine List.nodup_cons.mpr ⟨fun hc => ?_, ih _⟩
        exact ((mem_dedupKeys _ _ _).mp hc).2 (List.mem_cons_self _ _)

theorem dedupKeys_eq_self {α : Type} [DecidableEq α] :
    ∀ (l seen : List α), l.Nodup → (∀ x ∈ l, x ∉ seen) →
      dedupKeys l seen = l := by
  intro l
  induction l with
  | nil => intro seen _ _; simp [dedupKeys]
  | cons a t ih =>
      intro seen hnd hdisj
      rw [dedupKeys, if_neg (hdisj a (List.mem_cons_self _ _))]
      congr 1
      refine ih _ (List.nodup_cons.mp hnd).2 ?_
      intro x hx hc
      rcases List.mem_cons.mp hc with rfl | h
      · exact (List.nodup_cons.mp hnd).1 hx
      · exact hdisj x (List.mem_cons_of_mem _ hx) h

theorem attach_flatMap {α β : Type} (l : List α) (f : α → List β) :
    l.attach.flatMap (fun x => f x.1) = l.flatMap f := by
  rw [List.flatMap_def, List.flatMap_def, List.attach_map_val]

/-- Clean unfolding equation for find_all_paths, with the attach
machinery of the termination argument eliminated. -/
theorem find_all_paths_eq (d : List (String × List String))
    (source dest : String) (path : List String) :
    find_all_paths d source dest path =
      if source = dest then [path ++ [source]]
      else
        (dGet d source).flatMap (fun node =>
          if node ∈ path ++ [source] then
            (if backScan (dGet d node) node then
              [(path ++ [source]) ++ [node, "end"]] else [])
          else find_all_paths d node dest (path ++ [source])) := by
  rw [find_all_paths]
  rcases eq_or_ne source dest with h | h
  · simp [h]
  · rw [if_neg h, if_neg h, ← attach_flatMap (dGet d source)
      (fun node => if node ∈ path ++ [source] then
        (if backScan (dGet d node) node then
          [(path ++ [source]) ++ [node, "end"]] else [])
      else find_all_paths d node dest (path ++ [source]))]

theorem mem_allNodes_of_mem_dGet {d : List (String × List String)}
    {k x : String} (h : x ∈ dGet d k) : x ∈ allNodes d := by
  unfold dGet at h
  rcases hfind : (d.find? (fun p => p.1 = k)) with _ | p
  · simp only [hfind] at h; simp at h
  · simp only [hfind] at h
    exact List.mem_flatMap.mpr
      ⟨p, List.mem_of_find?_eq_some hfind, List.mem_cons_of_mem _ h⟩

theorem fapMeasure_decrease (d : List (String × List String))
    (source : String) (path : List String) (node : String)
    (hnode : node ∈ dGet d source) (hmem : node ∉ path ++ [source]) :
    ((allNodes d).toFinset \ ((path ++ [source]) ++ [node]).toFinset).card <
      ((allNodes d).toFinset \ (path ++ [source]).toFinset).card := by
  apply Finset.card_lt_card
  constructor
  · intro x hx
    rw [Finset.mem_sdiff] at hx ⊢
    refine ⟨hx.1, fun hc => hx.2 ?_⟩
    rw [List.mem_toFinset] at hc ⊢
    exact List.mem_append_left _ hc
  · intro hsub
    have hin : node ∈ (allNodes d).toFinset \ (path ++ [source]).toFinset := by
      rw [Finset.mem_sdiff, List.mem_toFinset, List.mem_toFinset]
      exact ⟨mem_allNodes_of_mem_dGet hnode, hmem⟩
    have := hsub hin
    rw [Finset.mem_sdiff, List.mem_toFinset] at this
    exact this.2 (by simp)

theorem fapFuel_eq : ∀ (fuel : Nat) (d : List (String × List String))
    (source dest : String) (path : List String),
    ((allNodes d).toFinset \ (path ++ [source]).toFinset).card < fuel →
    fapFuel fuel d source dest path = find_all_paths d source dest path := by
  intro fuel
  induction fuel with
  | zero => intro d source dest path h; omega
  | succ fuel ih =>
      intro d source dest path h
      rw [find_all_paths_eq, fapFuel]
      rcases eq_or_ne source dest with hsd | hsd
      · rw [if_pos hsd, if_pos hsd]
      · rw [if_neg hsd, if_neg hsd]
        apply List.flatMap_congr
        intro node hnode
        by_cases hmem : node ∈ path ++ [source]
        · rw [if_pos hmem, if_pos hmem]
        · rw [if_neg hmem, if_neg hmem]
          apply ih
          have := fapMeasure_decrease d source path node hnode hmem
          omega

/-- find_all_paths can be evaluated by running its fuelled companion with
fuel one more than the number of adjacency entries. -/
theorem find_all_paths_eq_fuel (d : List (String × List String))
    (source dest : String) (path : List String) :
    find_all_paths d source dest path =
      fapFuel ((allNodes d).length + 1) d source dest path := by
  refine (fapFuel_eq _ d source dest path ?_).symm
  have h1 : ((allNodes d).toFinset \ (path ++ [source]).toFinset).card ≤
      (allNodes d).toFinset.card :=
    Finset.card_le_card (Finset.sdiff_subset)
  have h2 : (allNodes d).toFinset.card ≤ (allNodes d).length :=
    (allNodes d).toFinset_card_le
  omega

end CFG

namespace CFG

/-! ### Facts about the decimal rendering Nat.repr

The labels of build_listM embed the counter through Nat.repr (Python
str(count)).  The lemmas below show the rendered digit block is a
nonempty list of digit characters and that the rendering is injective.
-/

theorem digitChar_isDigit : ∀ m, m < 10 → (Nat.digitChar m).isDigit = true := by
  decide

theorem toDigitsCore_append (b : Nat) : ∀ (fuel n : Nat) (ds : List Char),
    Nat.toDigitsCore b fuel n ds = Nat.toDigitsCore b fuel n [] ++ ds := by
  intro fuel
  induction fuel with
  | zero => intro n ds; simp [Nat.toDigitsCore]
  | succ fuel ih =>
      intro n ds
      simp only [Nat.toDigitsCore]
      by_cases h : n / b = 0
      · rw [if_pos h, if_pos h]; rfl
      · rw [if_neg h, if_neg h, ih (n / b) ((n % b).digitChar :: ds),
          ih (n / b) [(n % b).digitChar]]
        simp

theorem toDigitsCore_digits : ∀ (fuel n : Nat) (ds : List Char),
    (∀ c ∈ ds, c.isDigit = true) →
    ∀ c ∈ Nat.toDigitsCore 10 fuel n ds, c.isDigit = true := by
  intro fuel
  induction fuel with
  | zero => intro n ds hds; simpa [Nat.toDigitsCore] using hds
  | succ fuel ih =>
      intro n ds hds
      simp only [Nat.toDigitsCore]
      have hd : ∀ c ∈ (n % 10).digitChar :: ds, c.isDigit = true := by
        intro c hc
        rcases List.mem_cons.mp hc with rfl | hc
        · exact digitChar_isDigit _ (Nat.mod_lt _ (by omega))
        · exact hds c hc
      by_cases h : n / 10 = 0
      · rw [if_pos h]; exact hd
      · rw [if_neg h]; exact ih _ _ hd

theorem toDigitsCore_ne_nil (b : Nat) (fuel n : Nat) (ds : List Char) :
    Nat.toDigitsCore b (fuel + 1) n ds ≠ [] := by
  simp only [Nat.toDigitsCore]
  by_cases h : n / b = 0
  · rw [if_pos h]; simp
  · rw [if_neg h, toDigitsCore_append]; simp

theorem valDigits_concat (l : List Char) (c : Char) :
    valDigits (l ++ [c]) = valDigits l * 10 + digitVal c := by
  simp [valDigits, List.foldl_append]

theorem digitVal_digitChar : ∀ m, m < 10 →
    digitVal (Nat.digitChar m) = m := by decide

theorem valDigits_toDigitsCore : ∀ (fuel n : Nat), n < 10 ^ fuel →
    valDigits (Nat.toDigitsCore 10 fuel n []) = n := by
  intro fuel
  induction fuel with
  | zero => intro n h; interval_cases n; simp [Nat.toDigitsCore, valDigits]
  | succ fuel ih =>
      intro n h
      simp only [Nat.toDigitsCore]
      by_cases h0 : n / 10 = 0
      · rw [if_pos h0]
        have hn : n < 10 := by omega
        have : valDigits [(n % 10).digitChar] =
            digitVal ((n % 10).digitChar) := by
          simp [valDigits]
        rw [this, digitVal_digitChar _ (Nat.mod_lt _ (by omega)),
          Nat.mod_eq_of_lt hn]
      · rw [if_neg h0, toDigitsCore_append, valDigits_concat,
          digitVal_digitChar _ (Nat.mod_lt _ (by omega)), ih (n / 10) ?_]
        · omega
        · rw [Nat.div_lt_iff_lt_mul (by omega)]
          calc n < 10 ^ (fuel + 1) := h
          _ = 10 ^ fuel * 10 := by ring

theorem lt_ten_pow (n : Nat) : n < 10 ^ (n + 1) := by
  calc n < 2 ^ n := Nat.lt_two_pow n
  _ ≤ 10 ^ n := Nat.pow_le_pow_left (by omega) n
  _ ≤ 10 ^ (n + 1) := Nat.pow_le_pow_right (by omega) (by omega)

theorem valDigits_repr (n : Nat) : valDigits (Nat.repr n).data = n := by
  have : (Nat.repr n).data = Nat.toDigitsCore 10 (n + 1) n [] := rfl
  rw [this]
  exact valDigits_toDigitsCore (n + 1) n (lt_ten_pow n)

theorem repr_data_digits (n : Nat) :
    ∀ c ∈ (Nat.repr n).data, c.isDigit = true := by
  have : (Nat.repr n).data = Nat.toDigitsCore 10 (n + 1) n [] := rfl
  rw [this]
  exact toDigitsCore_digits (n + 1) n [] (by simp)

theorem repr_data_ne_nil (n : Nat) : (Nat.repr n).data ≠ [] := by
  have : (Nat.repr n).data = Nat.toDigitsCore 10 (n + 1) n [] := rfl
  rw [this]
  exact toDigitsCore_ne_nil 10 n n []

theorem repr_injective {m n : Nat} (h : Nat.repr m = Nat.repr n) : m = n := by
  have hd : (Nat.repr m).data = (Nat.repr n).data := by rw [h]
  have := valDigits_repr m
  rw [hd, valDigits_repr n] at this
  omega

end CFG

namespace CFG

/-! ### Shape of the labels emitted by build_listM -/

theorem mem_of_startsWithL : ∀ (n l : List Char), startsWithL n l = true →
    ∀ c ∈ n, c ∈ l := by
  intro n
  induction n with
  | nil => intro l _ c hc; simp at hc
  | cons p ps ih =>
      intro l h c hc
      cases l with
      | nil => simp [startsWithL] at h
      | cons a t =>
          simp only [startsWithL, Bool.and_eq_true, decide_eq_true_eq] at h
          rcases List.mem_cons.mp hc with rfl | hc
          · rw [h.1]; exact List.mem_cons_self _ _
          · exact List.mem_cons_of_mem _ (ih t h.2 c hc)

theorem mem_of_containsL : ∀ (l n : List Char), containsL n l = true →
    ∀ c ∈ n, c ∈ l := by
  intro l
  induction l with
  | nil =>
      intro n h c hc
      simp only [containsL, List.isEmpty_iff] at h
      subst h; simp at hc
  | cons a t ih =>
      intro n h c hc
      simp only [containsL, Bool.or_eq_true] at h
      rcases h with h | h
      · exact mem_of_startsWithL n _ h c hc
      · exact List.mem_cons_of_mem _ (ih n h c hc)

theorem startsWithL_self_append : ∀ (s b : List Char),
    startsWithL s (s ++ b) = true := by
  intro s
  induction s with
  | nil => intro b; rfl
  | cons c cs ih => intro b; simp [startsWithL, ih]

theorem containsL_nil_left : ∀ (l : List Char), containsL [] l = true := by
  intro l
  cases l with
  | nil => rfl
  | cons a t => simp [containsL, startsWithL]

theorem containsL_mid : ∀ (a s b : List Char),
    containsL s (a ++ (s ++ b)) = true := by
  intro a
  induction a with
  | nil =>
      intro s b
      cases s with
      | nil => simpa using containsL_nil_left b
      | cons c cs =>
          have h := startsWithL_self_append (c :: cs) b
          simp only [List.nil_append, containsL, Bool.or_eq_true]
          left
          simpa using h
  | cons x a' ih =>
      intro s b
      simp only [List.cons_append, containsL, Bool.or_eq_true]
      exact Or.inr (ih s b)

theorem digit_split_unique : ∀ (p1 r1 p2 r2 : List Char),
    (∀ c ∈ p1, c.isDigit = false) → (∀ c ∈ p2, c.isDigit = false) →
    (∀ c ∈ r1, c.isDigit = true) → (∀ c ∈ r2, c.isDigit = true) →
    p1 ++ r1 = p2 ++ r2 → p1 = p2 ∧ r1 = r2 := by
  intro p1
  induction p1 with
  | nil =>
      intro r1 p2 r2 _ hp2 hr1 _ heq
      cases p2 with
      | nil => exact ⟨rfl, heq⟩
      | cons c p2' =>
          exfalso
          have hc1 : c ∈ r1 := by
            rw [List.nil_append] at heq
            rw [heq]; exact List.mem_cons_self _ _
          have := hr1 c hc1
          have := hp2 c (List.mem_cons_self _ _)
          simp_all
  | cons a p1' ih =>
      intro r1 p2 r2 hp1 hp2 hr1 hr2 heq
      cases p2 with
      | nil =>
          exfalso
          have ha : a ∈ r2 := by
            rw [List.nil_append] at heq
            rw [← heq]; exact List.mem_cons_self _ _
          have := hr2 a ha
          have := hp1 a (List.mem_cons_self _ _)
          simp_all
      | cons c p2' =>
          simp only [List.cons_append, List.cons.injEq] at heq
          obtain ⟨rfl, heq⟩ := heq
          obtain ⟨h1, h2⟩ := ih r1 p2' r2
            (fun x hx => hp1 x (List.mem_cons_of_mem _ hx))
            (fun x hx => hp2 x (List.mem_cons_of_mem _ hx)) hr1 hr2 heq
          exact ⟨by rw [h1], h2⟩

theorem shape_of_append2 (a : String) (c : Nat)
    (ha : ∀ ch ∈ a.data, ch.isDigit = false) (hne : a.data ≠ []) :
    ∃ p, (a ++ Nat.repr c).data = p ++ (Nat.repr c).data ∧
      (∀ ch ∈ p, ch.isDigit = false) ∧ p ≠ [] :=
  ⟨a.data, String.data_append _ _, ha, hne⟩

theorem shape_of_append3 (a b : String) (c : Nat)
    (ha : ∀ ch ∈ a.data ++ b.data, ch.isDigit = false)
    (hne : a.data ++ b.data ≠ []) :
    ∃ p, (a ++ b ++ Nat.repr c).data = p ++ (Nat.repr c).data ∧
      (∀ ch ∈ p, ch.isDigit = false) ∧ p ≠ [] :=
  ⟨a.data ++ b.data, by simp [String.data_append], ha, hne⟩

theorem emitLabels_shape (kw : String) (nested : Bool) (c : Nat)
    (hkw : kw ∈ KEYWORDS) : ∀ l ∈ emitLabels kw nested c,
    ∃ p, l.data = p ++ (Nat.repr c).data ∧
      (∀ ch ∈ p, ch.isDigit = false) ∧ p ≠ [] := by
  simp only [KEYWORDS, List.mem_cons, List.not_mem_nil, or_false] at hkw
  intro l hl
  rcases hkw with rfl | rfl | rfl | rfl | rfl <;> cases nested <;>
    simp [emitLabels, mkLabel, mkExp] at hl
  · rcases hl with rfl | rfl
    · exact shape_of_append2 "if" c (by decide) (by decide)
    · exact shape_of_append3 "if" "exp" c (by decide) (by decide)
  · rcases hl with rfl | rfl
    · exact shape_of_append3 "if" "sp" c (by decide) (by decide)
    · exact shape_of_append3 "if" "spexp" c (by decide) (by decide)
  · rcases hl with rfl | rfl
    · exact shape_of_append2 "elif" c (by decide) (by decide)
    · exact shape_of_append3 "elif" "exp" c (by decide) (by decide)
  · rcases hl with rfl | rfl
    · exact shape_of_append3 "elif" "sp" c (by decide) (by decide)
    · exact shape_of_append3 "elif" "spexp" c (by decide) (by decide)
  · rcases hl with rfl
    exact shape_of_append2 "else" c (by decide) (by decide)
  · rcases hl with rfl
    exact shape_of_append3 "else" "sp" c (by decide) (by decide)
  · rcases hl with rfl
    exact shape_of_append2 "for" c (by decide) (by decide)
  · rcases hl with rfl
    exact shape_of_append3 "for" "sp" c (by decide) (by decide)
  · rcases hl with rfl
    exact shape_of_append2 "while" c (by decide) (by decide)
  · rcases hl with rfl
    exact shape_of_append3 "while" "sp" c (by decide) (by decide)

end CFG

namespace CFG

/-- A string whose characters end in a nonempty digit block is neither
"start" nor "end". -/
theorem shape_ne_start_end (l : String) (c : Nat) (p : List Char)
    (hl : l.data = p ++ (Nat.repr c).data) : l ≠ "start" ∧ l ≠ "end" := by
  rcases List.eq_nil_or_concat (Nat.repr c).data with hnil | ⟨L, b, hLb⟩
  · exact absurd hnil (repr_data_ne_nil c)
  · have hb : b.isDigit = true := by
      refine repr_data_digits c b ?_
      rw [hLb, List.concat_eq_append]
      simp
    have hlast : l.data.getLast? = some b := by
      rw [hl, hLb, List.concat_eq_append, ← List.append_assoc]
      exact List.getLast?_concat _
    constructor
    · intro h
      rw [h] at hlast
      have : ('t' : Char) = b := by
        have hh : some 't' = some b := by
          rw [← hlast]; decide
        exact Option.some.inj hh
      rw [← this] at hb
      simp at hb
    · intro h
      rw [h] at hlast
      have : ('d' : Char) = b := by
        have hh : some 'd' = some b := by
          rw [← hlast]; decide
        exact Option.some.inj hh
      rw [← this] at hb
      simp at hb

/-- Labels of occurrences with different counter values are distinct
strings. -/
theorem emitLabels_ne_of_count_ne {kw kw2 : String} {nested nested2 : Bool}
    {c c2 : Nat} (hk : kw ∈ KEYWORDS) (hk2 : kw2 ∈ KEYWORDS) (hcc : c ≠ c2) :
    ∀ l ∈ emitLabels kw nested c, ∀ l2 ∈ emitLabels kw2 nested2 c2,
      l ≠ l2 := by
  intro l hl l2 hl2 heq
  obtain ⟨p, hp, hpd, -⟩ := emitLabels_shape kw nested c hk l hl
  obtain ⟨q, hq, hqd, -⟩ := emitLabels_shape kw2 nested2 c2 hk2 l2 hl2
  have hdata : p ++ (Nat.repr c).data = q ++ (Nat.repr c2).data := by
    rw [← hp, ← hq, heq]
  obtain ⟨-, hr⟩ := digit_split_unique p _ q _ hpd hqd
    (repr_data_digits c) (repr_data_digits c2) hdata
  exact hcc (repr_injective (String.ext hr))

theorem emitLabels_nodup (kw : String) (nested : Bool) (c : Nat) :
    (emitLabels kw nested c).Nodup := by
  rw [emitLabels]
  by_cases h : (kw = "if" || kw = "elif") = true
  · rw [if_pos h]
    refine List.nodup_cons.mpr ⟨?_, by simp⟩
    simp only [List.mem_singleton]
    intro hne
    have hlen : (mkLabel kw nested c).data.length =
        (mkExp kw nested c).data.length := by rw [hne]
    cases nested <;>
      simp [mkLabel, mkExp, String.data_append, List.length_append] at hlen
    all_goals omega
  · rw [if_neg h]; simp

/-- The second component of an enumFrom member is a member of the list. -/
theorem snd_mem_of_mem_enumFrom {α : Type} {q : Nat × α} :
    ∀ (l : List α) (m : Nat), q ∈ List.enumFrom m l → q.2 ∈ l := by
  intro l
  induction l with
  | nil => intro m h; simp at h
  | cons a t ih =>
      intro m h
      rw [List.enumFrom_cons] at h
      rcases List.mem_cons.mp h with rfl | h
      · exact List.mem_cons_self _ _
      · exact List.mem_cons_of_mem _ (ih (m + 1) h)

/-- The first component of an enumFrom member is at least the start
index. -/
theorem fst_ge_of_mem_enumFrom {α : Type} {q : Nat × α} :
    ∀ (l : List α) (m : Nat), q ∈ List.enumFrom m l → m ≤ q.1 := by
  intro l
  induction l with
  | nil => intro m h; simp at h
  | cons a t ih =>
      intro m h
      rw [List.enumFrom_cons] at h
      rcases List.mem_cons.mp h with rfl | h
      · exact Nat.le_refl _
      · exact Nat.le_of_succ_le (ih (m + 1) h)

/-- Labels generated from an enumerated spec list with distinct counter
values form a duplicate-free list. -/
theorem enum_labels_nodup : ∀ (specs : List (String × Bool)) (m : Nat),
    (∀ p ∈ specs, p.1 ∈ KEYWORDS) →
    ((List.enumFrom m specs).flatMap
      (fun q => emitLabels q.2.1 q.2.2 q.1)).Nodup := by
  intro specs
  induction specs with
  | nil => intro m _; simp
  | cons hd tl ih =>
      intro m hkws
      rw [List.enumFrom_cons, List.flatMap_cons]
      refine List.nodup_append.mpr
        ⟨emitLabels_nodup _ _ _,
         ih (m + 1) (fun p hp => hkws p (List.mem_cons_of_mem _ hp)), ?_⟩
      intro l hl hl2
      obtain ⟨q, hq, hlq⟩ := List.mem_flatMap.mp hl2
      have hq2 : q.2 ∈ tl := snd_mem_of_mem_enumFrom tl (m + 1) hq
      have hq1 : m + 1 ≤ q.1 := fst_ge_of_mem_enumFrom tl (m + 1) hq
      exact emitLabels_ne_of_count_ne
        (hkws hd (List.mem_cons_self _ _))
        (hkws q.2 (List.mem_cons_of_mem _ hq2))
        (by omega) l hl l hlq rfl

/-- Every label generated from enumerated specs ends in the digit block
of its counter. -/
theorem enum_labels_shape : ∀ (specs : List (String × Bool)) (m : Nat),
    (∀ p ∈ specs, p.1 ∈ KEYWORDS) →
    ∀ l ∈ (List.enumFrom m specs).flatMap
      (fun q => emitLabels q.2.1 q.2.2 q.1),
    ∃ cc p, l.data = p ++ (Nat.repr cc).data ∧
      (∀ ch ∈ p, ch.isDigit = false) ∧ p ≠ [] := by
  intro specs m hkws l hl
  obtain ⟨q, hq, hlq⟩ := List.mem_flatMap.mp hl
  have hq2 : q.2 ∈ specs := snd_mem_of_mem_enumFrom specs m hq
  obtain ⟨p, hp⟩ := emitLabels_shape q.2.1 q.2.2 q.1 (hkws q.2 hq2) l hlq
  exact ⟨q.1, p, hp⟩

end CFG

namespace CFG

theorem extract_keyword_of_blank (line : List Char) (h : stripL line = []) :
    extract_keyword line = none := by
  unfold extract_keyword
  simp only [h]
  decide

theorem mem_KEYWORDS_of_extract {line : List Char} {kw : String}
    (h : extract_keyword line = some kw) : kw ∈ KEYWORDS :=
  List.mem_of_find?_eq_some h

/-- Decomposition of the build_listM loop: the emitted labels are exactly
the per-occurrence labels of a list of (keyword, nested) specs, numbered
consecutively from one past the incoming counter, one spec per matched
keyword line; the final counter is the incoming counter plus the number
of matched lines. -/
theorem buildAuxS_decomp : ∀ (lines : List (List Char)) (c : Nat)
    (st : List (Nat × String)), ∃ specs : List (String × Bool),
    specs.length = (keywordLines lines).length ∧
    (∀ p ∈ specs, p.1 ∈ KEYWORDS) ∧
    (buildAuxS lines c st).2.1 = c + specs.length ∧
    (buildAuxS lines c st).1 =
      (List.enumFrom (c + 1) specs).flatMap
        (fun q => emitLabels q.2.1 q.2.2 q.1) := by
  intro lines
  induction lines with
  | nil =>
      intro c st
      exact ⟨[], by simp [keywordLines], by simp, by simp [buildAuxS],
        by simp [buildAuxS]⟩
  | cons l rest ih =>
      intro c st
      by_cases hb : stripL l = []
      · have hkw : extract_keyword l = none := extract_keyword_of_blank l hb
        obtain ⟨specs, h1, h2, h3, h4⟩ := ih c st
        refine ⟨specs, ?_, h2, ?_, ?_⟩
        · rw [keywordLines, List.filter_cons]
          simp only [hkw, Option.isSome_none, Bool.false_eq_true, if_false]
          exact h1
        · simpa [buildAuxS, buildStep, hb] using h3
        · simpa [buildAuxS, buildStep, hb] using h4
      · cases hkw : extract_keyword l with
        | none =>
            obtain ⟨specs, h1, h2, h3, h4⟩ :=
              ih c (popGE (indent_level l) st)
            refine ⟨specs, ?_, h2, ?_, ?_⟩
            · rw [keywordLines, List.filter_cons]
              simp only [hkw, Option.isSome_none, Bool.false_eq_true, if_false]
              exact h1
            · simpa [buildAuxS, buildStep, hb, hkw] using h3
            · simpa [buildAuxS, buildStep, hb, hkw] using h4
        | some kw =>
            obtain ⟨specs, h1, h2, h3, h4⟩ :=
              ih (c + 1) ((indent_level l,
                mkLabel kw (!(popGE (indent_level l) st).isEmpty) (c + 1)) ::
                popGE (indent_level l) st)
            refine ⟨(kw, !(popGE (indent_level l) st).isEmpty) :: specs,
              ?_, ?_, ?_, ?_⟩
            · rw [keywordLines, List.filter_cons]
              simp only [hkw, Option.isSome_some, if_true, List.length_cons]
              rw [h1]; rfl
            · intro p hp
              rcases List.mem_cons.mp hp with rfl | hp
              · exact mem_KEYWORDS_of_extract hkw
              · exact h2 p hp
            · have := h3
              simp only [buildAuxS, buildStep, if_neg hb, hkw] at this ⊢
              rw [this, List.length_cons]
              omega
            · have := h4
              simp only [buildAuxS, buildStep, if_neg hb, hkw] at this ⊢
              rw [this, List.enumFrom_cons, List.flatMap_cons]


theorem x_not_mem_kw {kw : String} (hkw : kw ∈ KEYWORDS) :
    ('x' : Char) ∉ kw.data := by
  simp only [KEYWORDS, List.mem_cons, List.not_mem_nil, or_false] at hkw
  rcases hkw with rfl | rfl | rfl | rfl | rfl <;> decide

theorem x_not_mem_repr (c : Nat) : ('x' : Char) ∉ (Nat.repr c).data := by
  intro hx
  have := repr_data_digits c 'x' hx
  simp at this

theorem mkLabel_no_exp (kw : String) (nested : Bool) (c : Nat)
    (hkw : kw ∈ KEYWORDS) :
    containsL ['e', 'x', 'p'] (mkLabel kw nested c).data = false := by
  by_contra h
  rw [Bool.not_eq_false] at h
  have hx : ('x' : Char) ∈ (mkLabel kw nested c).data :=
    mem_of_containsL _ _ h 'x' (by decide)
  cases nested
  · have hdata : (mkLabel kw false c).data =
        kw.data ++ (Nat.repr c).data := by
      simp [mkLabel, String.data_append]
    rw [hdata] at hx
    rcases List.mem_append.mp hx with hx | hx
    · exact x_not_mem_kw hkw hx
    · exact x_not_mem_repr c hx
  · have hdata : (mkLabel kw true c).data =
        kw.data ++ (['s', 'p'] ++ (Nat.repr c).data) := by
      simp [mkLabel, String.data_append]
    rw [hdata] at hx
    rcases List.mem_append.mp hx with hx | hx
    · exact x_not_mem_kw hkw hx
    · rcases List.mem_append.mp hx with hx | hx
      · simp at hx
      · exact x_not_mem_repr c hx

theorem mkExp_has_exp (kw : String) (nested : Bool) (c : Nat) :
    containsL ['e', 'x', 'p'] (mkExp kw nested c).data = true := by
  cases nested
  · have hdata : (mkExp kw false c).data =
        kw.data ++ (['e', 'x', 'p'] ++ (Nat.repr c).data) := by
      simp [mkExp, String.data_append]
    rw [hdata]
    exact containsL_mid kw.data _ _
  · have hdata : (mkExp kw true c).data =
        (kw.data ++ ['s', 'p']) ++ (['e', 'x', 'p'] ++ (Nat.repr c).data) := by
      simp [mkExp, String.data_append]
    rw [hdata]
    exact containsL_mid _ _ _

theorem emitLabels_filter_len (kw : String) (nested : Bool) (c : Nat)
    (hkw : kw ∈ KEYWORDS) :
    ((emitLabels kw nested c).filter
      (fun l => !(l == "start" || l == "end" ||
        containsL ['e', 'x', 'p'] l.data))).length = 1 := by
  have hmain : ∀ b, (mkLabel kw nested c) = b → b ∈ emitLabels kw nested c := by
    intro b hb
    rw [← hb, emitLabels]
    split <;> simp
  have hshape := emitLabels_shape kw nested c hkw (mkLabel kw nested c)
    (hmain _ rfl)
  obtain ⟨p, hp, -, -⟩ := hshape
  have hne := shape_ne_start_end (mkLabel kw nested c) c p hp
  have h1 : (mkLabel kw nested c == "start") = false :=
    beq_eq_false_iff_ne.mpr hne.1
  have h2 : (mkLabel kw nested c == "end") = false :=
    beq_eq_false_iff_ne.mpr hne.2
  have h3 := mkLabel_no_exp kw nested c hkw
  have h4 := mkExp_has_exp kw nested c
  rw [emitLabels]
  split
  · simp [List.filter_cons, h1, h2, h3, h4]
  · simp [List.filter_cons, h1, h2, h3]

theorem enum_labels_filter_len : ∀ (specs : List (String × Bool)) (m : Nat),
    (∀ p ∈ specs, p.1 ∈ KEYWORDS) →
    (((List.enumFrom m specs).flatMap
        (fun q => emitLabels q.2.1 q.2.2 q.1)).filter
      (fun l => !(l == "start" || l == "end" ||
        containsL ['e', 'x', 'p'] l.data))).length = specs.length := by
  intro specs
  induction specs with
  | nil => intro m _; simp
  | cons hd tl ih =>
      intro m hkws
      rw [List.enumFrom_cons, List.flatMap_cons, List.filter_append,
        List.length_append, List.length_cons]
      rw [emitLabels_filter_len hd.1 hd.2 m (hkws hd (List.mem_cons_self _ _)),
        ih (m + 1) (fun p hp => hkws p (List.mem_cons_of_mem _ hp))]
      omega

end CFG

namespace CFG

/-- Claim C6: for every input text, the global counter of build_listM
increases by exactly one per recognized keyword occurrence (shared across
all keyword kinds, never reset), so the emitted labels are numbered
consecutively from 1 with no gaps or reuse (each matched line contributes
the labels of its occurrence index), and the number of emitted labels
excluding start, end and the paired expression labels equals the number
of matched keyword lines. -/
theorem claim_c6_counter_monotone (lines : List (List Char)) :
    ∃ specs : List (String × Bool),
      specs.length = (keywordLines lines).length ∧
      (buildAuxS lines 0 []).2.1 = (keywordLines lines).length ∧
      (buildAuxS lines 0 []).1 =
        (List.enumFrom 1 specs).flatMap
          (fun q => emitLabels q.2.1 q.2.2 q.1) ∧
      ((build_listM lines).filter
        (fun l => !(l == "start" || l == "end" ||
          containsL ['e', 'x', 'p'] l.data))).length =
        (keywordLines lines).length := by
  obtain ⟨specs, h1, h2, h3, h4⟩ := buildAuxS_decomp lines 0 []
  have h4' : (buildAuxS lines 0 []).1 =
      (List.enumFrom 1 specs).flatMap
        (fun q => emitLabels q.2.1 q.2.2 q.1) := by
    simpa using h4
  refine ⟨specs, h1, by omega, h4', ?_⟩
  rw [build_listM, List.cons_append, List.filter_cons]
  have hstart : (!(("start" : String) == "start" || ("start" : String) == "end"
      || containsL ['e', 'x', 'p'] ("start" : String).data)) = false := by
    decide
  rw [hstart]
  simp only [Bool.false_eq_true, if_false]
  rw [List.filter_append, List.length_append, h4',
    enum_labels_filter_len specs 1 h2, h1]
  have hend : (List.filter (fun l => !(l == "start" || l == "end" ||
      containsL ['e', 'x', 'p'] l.data)) ["end"]).length = 0 := by decide
  omega

/-- Claim C9: for every source text, the label sequence returned by
build_listM contains no duplicate labels, so the order-preserving
deduplication create_nodes is the identity on it: the node list of the
edge generator equals the label sequence itself. -/
theorem claim_c9_labels_nodup (lines : List (List Char)) :
    (build_listM lines).Nodup ∧
      create_nodes (build_listM lines) = build_listM lines := by
  obtain ⟨specs, h1, h2, h3, h4⟩ := buildAuxS_decomp lines 0 []
  have h4' : (buildAuxS lines 0 []).1 =
      (List.enumFrom 1 specs).flatMap
        (fun q => emitLabels q.2.1 q.2.2 q.1) := by
    simpa using h4
  have hnodup : (build_listM lines).Nodup := by
    rw [build_listM, h4']
    refine List.nodup_cons.mpr ⟨?_, ?_⟩
    · intro hmem
      rcases List.mem_append.mp hmem with h | h
      · obtain ⟨cc, p, hp, -, -⟩ := enum_labels_shape specs 1 h2 _ h
        exact (shape_ne_start_end _ cc p hp).1 rfl
      · have : ("start" : String) = "end" := List.mem_singleton.mp h
        exact absurd this (by decide)
    · refine List.nodup_append.mpr
        ⟨enum_labels_nodup specs 1 h2, by simp, ?_⟩
      intro l hl hl2
      have hle : l = "end" := List.mem_singleton.mp hl2
      obtain ⟨cc, p, hp, -, -⟩ := enum_labels_shape specs 1 h2 l hl
      exact (shape_ne_start_end l cc p hp).2 hle
  exact ⟨hnodup, dedupKeys_eq_self _ [] hnodup (by simp)⟩

/-- Witness for claim C9 at a concrete source. -/
theorem claim_c9_witness :
    (build_listM scenario1Lines).Nodup ∧
      create_nodes (build_listM scenario1Lines) =
        build_listM scenario1Lines :=
  claim_c9_labels_nodup scenario1Lines

end CFG

namespace CFG

theorem getD_mem_of_lt (l : List String) (i : Nat) (h : i < l.length) :
    l.getD i "" ∈ l := by
  rw [List.getD_eq_getElem?_getD, List.getElem?_eq_getElem h]
  exact List.getElem_mem h

theorem scanFrom_some (listM : List String) (p : String → Bool) :
    ∀ (rem j k : Nat), scanFrom listM p rem j = some k →
      j ≤ k ∧ k < j + rem ∧ p (listM.getD k "") = true := by
  intro rem
  induction rem with
  | zero => intro j k h; simp [scanFrom] at h
  | succ rem ih =>
      intro j k h
      rw [scanFrom] at h
      by_cases hp : p (listM.getD j "") = true
      · rw [if_pos hp] at h
        obtain rfl : j = k := Option.some.inj h
        exact ⟨Nat.le_refl _, by omega, hp⟩
      · rw [if_neg hp] at h
        obtain ⟨h1, h2, h3⟩ := ih (j + 1) k h
        exact ⟨by omega, by omega, h3⟩

set_option maxHeartbeats 1000000 in
theorem genStepD_newEdges_sub (listM : List String) (i : Nat)
    (st en stfor enfor : Option Nat) (e : String × String)
    (he : e ∈ (genStepD listM i st en stfor enfor).newEdges) :
    NewEdge listM i e := by
  unfold genStepD at he
  simp only at he
  split at he
  · simp at he
  · split at he
    · -- branch 2: if/elif with exp next
      rename_i hcond
      simp only [StepDelta.newEdges] at he
      rcases List.mem_append.mp he with he | he
      · rcases List.mem_append.mp he with he | he
        · rcases List.mem_singleton.mp he with rfl
          exact Or.inr (Or.inl rfl)
        · rcases hscan : scanFrom listM _is_branch_kw
            (listM.length - (i + 2)) (i + 2) with _ | k
          · rw [hscan] at he; simp at he
          · rw [hscan] at he
            rcases List.mem_singleton.mp he with rfl
            obtain ⟨hk1, hk2, -⟩ := scanFrom_some listM _ _ _ _ hscan
            exact Or.inr (Or.inr (Or.inr (Or.inr (Or.inr (Or.inl
              ⟨k, by omega, by omega, rfl⟩)))))
      · rcases List.mem_singleton.mp he with rfl
        have hexp : _is_plain_exp (listM.getD (i + 1) "") = true := by
          simp only [Bool.and_eq_true] at hcond
          exact hcond.2
        exact Or.inr (Or.inr (Or.inr (Or.inl ⟨hexp, rfl⟩)))
    · split at he
      · -- branch 3: else
        simp only [StepDelta.newEdges] at he
        rcases List.mem_singleton.mp he with rfl
        exact Or.inr (Or.inr (Or.inl rfl))
      · split at he
        · -- branch 4: forsp
          simp only [StepDelta.newEdges] at he
          rcases List.mem_append.mp he with he | he
          · rcases List.mem_singleton.mp he with rfl
            exact Or.inl rfl
          · split at he
            · rename_i hfor
              rcases List.mem_singleton.mp he with rfl
              exact Or.inr (Or.inr (Or.inr (Or.inr (Or.inr (Or.inr
                ⟨hfor, rfl⟩)))))
            · split at he
              · rcases List.mem_singleton.mp he with rfl
                exact Or.inr (Or.inl rfl)
              · split at he
                · rcases List.mem_singleton.mp he with rfl
                  exact Or.inr (Or.inr (Or.inr (Or.inr (Or.inl rfl))))
                · split at he
                  · rcases List.mem_singleton.mp he with rfl
                    exact Or.inr (Or.inl rfl)
                  · simp at he
        · split at he
          · -- branch 5: non-nested for
            rcases hscan : scanFrom listM
                (fun t => !containsL "sp".data t.data)
                (listM.length - (i + 1)) (i + 1) with _ | k <;>
              rw [hscan] at he <;> simp only [StepDelta.newEdges] at he
            · split at he
              · rcases List.mem_singleton.mp he with rfl
                exact Or.inl rfl
              · simp at he
            · obtain ⟨hk1, hk2, -⟩ := scanFrom_some listM _ _ _ _ hscan
              rcases List.mem_append.mp he with he | he
              · rcases List.mem_append.mp he with he | he
                · split at he
                  · rcases List.mem_singleton.mp he with rfl
                    exact Or.inl rfl
                  · simp at he
                · rcases List.mem_singleton.mp he with rfl
                  exact Or.inr (Or.inr (Or.inr (Or.inr (Or.inr (Or.inl
                    ⟨k, by omega, by omega, rfl⟩)))))
              · split at he
                · rcases List.mem_singleton.mp he with rfl
                  exact Or.inr (Or.inr (Or.inr (Or.inr (Or.inr (Or.inl
                    ⟨i + 1, by omega, by omega, rfl⟩)))))
                · simp at he
          · split at he
            · -- branch 6: non-nested while
              rcases hscan : scanFrom listM
                  (fun t => !containsL "sp".data t.data)
                  (listM.length - (i + 1)) (i + 1) with _ | k <;>
                rw [hscan] at he <;> simp only [StepDelta.newEdges] at he
              · split at he
                · rcases List.mem_singleton.mp he with rfl
                  exact Or.inl rfl
                · simp at he
              · obtain ⟨hk1, hk2, -⟩ := scanFrom_some listM _ _ _ _ hscan
                rcases List.mem_append.mp he with he | he
                · rcases List.mem_append.mp he with he | he
                  · split at he
                    · rcases List.mem_singleton.mp he with rfl
                      exact Or.inl rfl
                    · simp at he
                  · rcases List.mem_singleton.mp he with rfl
                    exact Or.inr (Or.inr (Or.inr (Or.inr (Or.inr (Or.inl
                      ⟨k, by omega, by omega, rfl⟩)))))
                · split at he
                  · rcases List.mem_singleton.mp he with rfl
                    exact Or.inr (Or.inr (Or.inr (Or.inr (Or.inr (Or.inl
                      ⟨i + 1, by omega, by omega, rfl⟩)))))
                  · simp at he
            · split at he
              · -- branch 7: whilesp
                simp only [StepDelta.newEdges] at he
                rcases List.mem_append.mp he with he | he
                · split at he
                  · rcases List.mem_singleton.mp he with rfl
                    exact Or.inr (Or.inr (Or.inr (Or.inr (Or.inl rfl))))
                  · split at he
                    · rcases List.mem_singleton.mp he with rfl
                      exact Or.inr (Or.inl rfl)
                    · simp at he
                · rcases List.mem_singleton.mp he with rfl
                  exact Or.inl rfl
              · -- branch 8: default
                simp only [StepDelta.newEdges] at he
                split at he
                · rcases List.mem_singleton.mp he with rfl
                  exact Or.inr (Or.inl rfl)
                · simp at he

theorem genStep_edges_sub (listM : List String) (i : Nat) (s : GenSt)
    (e : String × String) (he : e ∈ (genStep listM i s).edges) :
    e ∈ s.edges ∨ NewEdge listM i e := by
  rw [genStep] at he
  simp only [GenSt.edges] at he
  rcases List.mem_append.mp he with he | he
  · exact Or.inl he
  · exact Or.inr (genStepD_newEdges_sub listM i s.st s.en s.stfor s.enfor e he)

end CFG

namespace CFG

theorem genLoop_edges_inv (listM : List String) (P : String × String → Prop)
    (hstep : ∀ i, 1 ≤ i → i + 2 ≤ listM.length →
      ∀ e, NewEdge listM i e → P e) :
    ∀ (rem i : Nat) (s : GenSt), 1 ≤ i → i + rem + 1 ≤ listM.length →
      (∀ e ∈ s.edges, P e) → ∀ e ∈ (genLoop listM rem i s).edges, P e := by
  intro rem
  induction rem with
  | zero =>
      intro i s _ _ hs e he
      rw [genLoop] at he
      exact hs e he
  | succ rem ih =>
      intro i s hi hb hs
      rw [genLoop]
      refine ih (i + 1) _ (by omega) (by omega) ?_
      intro e he
      rcases genStep_edges_sub listM i s e he with h | h
      · exact hs e h
      · exact hstep i hi (by omega) e h

theorem generate_cfg_edges_eq (listM : List String) :
    (generate_cfg listM).2.1 =
      dedupKeys (genLoop listM (listM.length - 2) 1
        { edges := if 2 ≤ listM.length then
            [(listM.getD 0 "", listM.getD 1 "")] else [],
          list3 := [], st := none, en := none,
          stfor := none, enfor := none }).edges [] := rfl

theorem generate_cfg_nodes_eq (listM : List String) :
    (generate_cfg listM).1 = create_nodes listM := rfl

/-- Every deduplicated edge of generate_cfg is either the initial
start edge or an edge of the shape appended at some in-range loop
index. -/
theorem generate_cfg_edges_sub (listM : List String) (e : String × String)
    (he : e ∈ (generate_cfg listM).2.1) :
    (2 ≤ listM.length ∧ e = (listM.getD 0 "", listM.getD 1 "")) ∨
    ∃ i, 1 ≤ i ∧ i + 2 ≤ listM.length ∧ NewEdge listM i e := by
  rw [generate_cfg_edges_eq] at he
  have he2 := ((mem_dedupKeys _ _ _).mp he).1
  by_cases hlen : 2 ≤ listM.length
  · refine genLoop_edges_inv listM
      (fun e2 => (2 ≤ listM.length ∧
        e2 = (listM.getD 0 "", listM.getD 1 "")) ∨
        ∃ i, 1 ≤ i ∧ i + 2 ≤ listM.length ∧ NewEdge listM i e2)
      ?_ (listM.length - 2) 1 _ (by omega) (by omega) ?_ e he2
    · intro i hi1 hi2 e2 hne
      exact Or.inr ⟨i, hi1, hi2, hne⟩
    · intro e2 he3
      rw [if_pos hlen] at he3
      rcases List.mem_singleton.mp he3 with rfl
      exact Or.inl ⟨hlen, rfl⟩
  · have hrem : listM.length - 2 = 0 := by omega
    rw [hrem, genLoop, if_neg hlen] at he2
    simp at he2

theorem _is_plain_exp_ne_end {t : String} (h : _is_plain_exp t = true) :
    t ≠ "end" := by
  intro heq
  rw [heq] at h
  exact absurd h (by decide)

theorem _is_branch_kw_ne_start {t : String} (h : _is_branch_kw t = true) :
    t ≠ "start" := by
  intro heq
  rw [heq] at h
  exact absurd h (by decide)

/-- Claim C10: for every label sequence in which "start" occurs only as
the first element and "end" occurs only as the last element, the edge
list returned by generate_cfg contains no edge whose destination is
"start" and no edge whose source is "end". -/
theorem claim_c10_start_source_end_sink (listM : List String)
    (hs : ∀ k, k < listM.length → listM.getD k "" = "start" → k = 0)
    (hz : ∀ k, k < listM.length → listM.getD k "" = "end" →
      k = listM.length - 1) :
    ∀ e ∈ (generate_cfg listM).2.1, e.2 ≠ "start" ∧ e.1 ≠ "end" := by
  intro e he
  rcases generate_cfg_edges_sub listM e he with ⟨hlen, rfl⟩ |
    ⟨i, hi1, hi2, hne⟩
  · constructor
    · intro hc
      have := hs 1 (by omega) hc
      omega
    · intro hc
      have := hz 0 (by omega) hc
      omega
  · have hcur_src : listM.getD i "" ≠ "end" := by
      intro hc
      have := hz i (by omega) hc
      omega
    have hcur_dst : listM.getD i "" ≠ "start" := by
      intro hc
      have := hs i (by omega) hc
      omega
    have hnxt_dst : listM.getD (i + 1) "" ≠ "start" := by
      intro hc
      have := hs (i + 1) (by omega) hc
      omega
    rcases hne with rfl | rfl | rfl | ⟨hexp, rfl⟩ | rfl |
      ⟨k, hk1, hk2, rfl⟩ | ⟨hfor, rfl⟩
    · exact ⟨hcur_dst, hcur_src⟩
    · exact ⟨hnxt_dst, hcur_src⟩
    · refine ⟨?_, hcur_src⟩
      show ("end" : String) ≠ "start"
      decide
    · refine ⟨?_, _is_plain_exp_ne_end hexp⟩
      show ("end" : String) ≠ "start"
      decide
    · refine ⟨?_, hcur_src⟩
      show ("f" : String) ≠ "start"
      decide
    · refine ⟨?_, hcur_src⟩
      intro hc
      have := hs k (by omega) hc
      omega
    · refine ⟨?_, hcur_src⟩
      intro hc
      have hc2 : listM.getD (i - 1) "" = "start" := hc
      rw [hc2] at hfor
      exact absurd hfor (by decide)

/-- Claim C5 (amended): for every label sequence, the edge list returned
by generate_cfg contains no ordered pair twice, every edge source is a
member of the returned node list, and every edge destination is a member
of the node list or one of the two literals "end" and "f" emitted by the
branch and loop rules. -/
theorem claim_c5_amended_edges (listM : List String) :
    (generate_cfg listM).2.1.Nodup ∧
    ∀ e ∈ (generate_cfg listM).2.1,
      e.1 ∈ (generate_cfg listM).1 ∧
      (e.2 ∈ (generate_cfg listM).1 ∨ e.2 = "end" ∨ e.2 = "f") := by
  constructor
  · rw [generate_cfg_edges_eq]
    exact nodup_dedupKeys _ _
  · intro e he
    have hmem : ∀ x : String, x ∈ listM → x ∈ (generate_cfg listM).1 := by
      intro x hx
      rw [generate_cfg_nodes_eq, create_nodes]
      exact (mem_dedupKeys _ _ _).mpr ⟨hx, by simp⟩
    rcases generate_cfg_edges_sub listM e he with ⟨hlen, rfl⟩ |
      ⟨i, hi1, hi2, hne⟩
    · exact ⟨hmem _ (getD_mem_of_lt _ 0 (by omega)),
        Or.inl (hmem _ (getD_mem_of_lt _ 1 (by omega)))⟩
    · have hcur : listM.getD i "" ∈ (generate_cfg listM).1 :=
        hmem _ (getD_mem_of_lt _ i (by omega))
      have hnxt : listM.getD (i + 1) "" ∈ (generate_cfg listM).1 :=
        hmem _ (getD_mem_of_lt _ (i + 1) (by omega))
      rcases hne with rfl | rfl | rfl | ⟨hexp, rfl⟩ | rfl |
        ⟨k, hk1, hk2, rfl⟩ | ⟨hfor, rfl⟩
      · exact ⟨hcur, Or.inl hcur⟩
      · exact ⟨hcur, Or.inl hnxt⟩
      · exact ⟨hcur, Or.inr (Or.inl rfl)⟩
      · exact ⟨hnxt, Or.inr (Or.inl rfl)⟩
      · exact ⟨hcur, Or.inr (Or.inr rfl)⟩
      · exact ⟨hcur, Or.inl (hmem _ (getD_mem_of_lt _ k (by omega)))⟩
      · exact ⟨hcur, Or.inl (hmem _ (getD_mem_of_lt _ (i - 1) (by omega)))⟩

end CFG

namespace CFG

/-- Main invariant of find_all_paths run toward dest "end": every
returned path extends the incoming prefix-plus-source, terminates at
"end", and visits no label three times (the back-edge rule appends a
revisited node at most once). -/
theorem fap_spec (d : List (String × List String)) :
    ∀ (N : Nat) (source : String) (path : List String),
      ((allNodes d).toFinset \ (path ++ [source]).toFinset).card ≤ N →
      "end" ∉ path → (path ++ [source]).Nodup →
      ∀ p ∈ find_all_paths d source "end" path,
        ((path ++ [source]) <+: p) ∧ p.getLast? = some "end" ∧
        ∀ x, p.count x ≤ 2 := by
  intro N
  induction N using Nat.strong_induction_on with
  | _ N ih =>
    intro source path hmu hend hnodup p hp
    rw [find_all_paths_eq] at hp
    by_cases hsd : source = "end"
    · rw [if_pos hsd] at hp
      rcases List.mem_singleton.mp hp with rfl
      subst hsd
      refine ⟨List.prefix_refl _, List.getLast?_concat _, ?_⟩
      intro x
      exact Nat.le_trans (List.nodup_iff_count_le_one.mp hnodup x) (by omega)
    · rw [if_neg hsd] at hp
      obtain ⟨node, hnode, hp2⟩ := List.mem_flatMap.mp hp
      have hend2 : "end" ∉ path ++ [source] := by
        intro hc
        rcases List.mem_append.mp hc with hc | hc
        · exact hend hc
        · exact hsd (List.mem_singleton.mp hc).symm
      by_cases hmem : node ∈ path ++ [source]
      · rw [if_pos hmem] at hp2
        by_cases hback : backScan (dGet d node) node = true
        · rw [if_pos hback] at hp2
          rcases List.mem_singleton.mp hp2 with rfl
          have hne_ne : node ≠ "end" := fun hc => hend2 (hc ▸ hmem)
          refine ⟨⟨[node, "end"], rfl⟩, ?_, ?_⟩
          · have hsplit : (path ++ [source]) ++ [node, "end"] =
                ((path ++ [source]) ++ [node]) ++ ["end"] := by simp
            rw [hsplit]
            exact List.getLast?_concat _
          · intro x
            have hnd_count := List.nodup_iff_count_le_one.mp hnodup
            rw [List.count_append]
            by_cases hx1 : x = node
            · subst hx1
              have c2 : List.count x [x, "end"] = 1 := by
                simp [List.count_cons, hne_ne]
              rw [c2]
              have := hnd_count x
              omega
            · by_cases hx2 : x = "end"
              · subst hx2
                have c2 : List.count "end" [node, "end"] = 1 := by
                  simp [List.count_cons, hne_ne]
                have c1 : List.count "end" (path ++ [source]) = 0 :=
                  List.count_eq_zero.mpr hend2
                omega
              · have c2 : List.count x [node, "end"] = 0 := by
                  simp [List.count_cons]
                  exact ⟨fun hc => absurd hc.symm hx2,
                    fun hc => absurd hc.symm hx1⟩
                have := hnd_count x
                omega
        · rw [if_neg hback] at hp2
          simp at hp2
      · rw [if_neg hmem] at hp2
        have hdec := fapMeasure_decrease d source path node hnode hmem
        have hnodup2 : ((path ++ [source]) ++ [node]).Nodup := by
          rw [List.nodup_append]
          refine ⟨hnodup, by simp, ?_⟩
          intro a ha hb
          rcases List.mem_singleton.mp hb with rfl
          exact hmem ha
        obtain ⟨hpref, hlast, hcount⟩ :=
          ih (((allNodes d).toFinset \
              ((path ++ [source]) ++ [node]).toFinset).card)
            (by omega) node (path ++ [source]) (Nat.le_refl _)
            hend2 hnodup2 p hp2
        exact ⟨(List.prefix_append _ _).trans hpref, hlast, hcount⟩

/-- Claim C7: for every adjacency mapping, every path returned by
find_all_paths from "start" to "end" begins with "start" and ends with
"end", and no label occurs more than twice in it: the back-edge rule
appends its revisited node only once, so a synthetic completed path
never re-enters the same back-edge node twice. -/
theorem claim_c7_paths_start_end (d : List (String × List String))
    (p : List String) (hp : p ∈ find_all_paths d "start" "end" []) :
    p.head? = some "start" ∧ p.getLast? = some "end" ∧
      ∀ x, p.count x ≤ 2 := by
  obtain ⟨hpref, hlast, hcount⟩ := fap_spec d
    ((allNodes d).toFinset \ ([] ++ ["start"] : List String).toFinset).card
    "start" [] (Nat.le_refl _) (by simp) (by simp) p hp
  refine ⟨?_, hlast, hcount⟩
  obtain ⟨t, ht⟩ := hpref
  rw [← ht]
  rfl

/-- Witness for claim C7: the property instantiated on the Scenario 1
graph at its first returned path. -/
theorem claim_c7_witness :
    (["start", "if1", "ifexp1", "end"] : List String).head? = some "start" ∧
    (["start", "if1", "ifexp1", "end"] : List String).getLast? = some "end" ∧
    ∀ x, (["start", "if1", "ifexp1", "end"] : List String).count x ≤ 2 :=
  claim_c7_paths_start_end
    (build_adj_from_edges (generate_cfg (build_listM scenario1Lines)).2.1)
    ["start", "if1", "ifexp1", "end"]
    (by rw [find_all_paths_eq_fuel]; decide)

end CFG

namespace CFG

/-- A source whose lines all fail the keyword test emits no labels. -/
theorem buildAuxS_no_kw (rest : List (List Char)) (c : Nat)
    (st : List (Nat × String))
    (h : ∀ l ∈ rest, extract_keyword l = none) :
    (buildAuxS rest c st).1 = [] := by
  obtain ⟨specs, h1, -, -, h4⟩ := buildAuxS_decomp rest c st
  have hkl : (keywordLines rest).length = 0 := by
    rw [keywordLines, List.length_eq_zero, List.filter_eq_nil_iff]
    intro l hl
    simp [h l hl]
  have hspecs : specs = [] := List.length_eq_zero.mp (by omega)
  rw [h4, hspecs]
  rfl

theorem extract_keyword_not_blank {w : List Char} {kw : String}
    (hw : extract_keyword w = some kw) : stripL w ≠ [] := by
  intro hc
  rw [extract_keyword_of_blank w hc] at hw
  exact Option.noConfusion hw

/-- The label list of a source whose first line is a while keyword line
and whose remaining lines match no keyword. -/
theorem build_listM_while (w : List Char) (rest : List (List Char))
    (hw : extract_keyword w = some "while")
    (hr : ∀ l ∈ rest, extract_keyword l = none) :
    build_listM (w :: rest) = ["start", "while1", "end"] := by
  have hwb : ¬(stripL w = []) := extract_keyword_not_blank hw
  rw [build_listM]
  have hstep : (buildAuxS (w :: rest) 0 []).1 =
      emitLabels "while" false 1 ++
        (buildAuxS rest 1
          [(indent_level w, mkLabel "while" false 1)]).1 := by
    simp [buildAuxS, buildStep, hwb, hw, popGE]
  rw [hstep, buildAuxS_no_kw rest 1 _ hr]
  decide

/-- Claim C2 (amended): for every source consisting of a single
non-nested while line followed by body lines containing no recognized
keyword, the edge generator emits the self-loop at while1 and the
loop-exit edge to end (plus the start edge), but path enumeration over
the resulting adjacency returns exactly one path: the self-loop is the
first successor of while1, so the back-edge scan stops at it and no
synthetic loop-executed path is produced. -/
theorem claim_c2_amended_single_path (w : List Char)
    (rest : List (List Char))
    (hw : extract_keyword w = some "while")
    (hr : ∀ l ∈ rest, extract_keyword l = none) :
    build_listM (w :: rest) = ["start", "while1", "end"] ∧
    generate_cfg ["start", "while1", "end"] =
      (["start", "while1", "end"],
       [("start", "while1"), ("while1", "while1"), ("while1", "end")],
       []) ∧
    find_all_paths (build_adj_from_edges
        [("start", "while1"), ("while1", "while1"), ("while1", "end")])
        "start" "end" [] = [["start", "while1", "end"]] :=
  ⟨build_listM_while w rest hw hr, by decide,
   by rw [find_all_paths_eq_fuel]; decide⟩

/-- Witness for claim C2 (amended) at the concrete Scenario 4 source. -/
theorem claim_c2_amended_witness :
    build_listM whileLines = ["start", "while1", "end"] ∧
    generate_cfg ["start", "while1", "end"] =
      (["start", "while1", "end"],
       [("start", "while1"), ("while1", "while1"), ("while1", "end")],
       []) ∧
    find_all_paths (build_adj_from_edges
        [("start", "while1"), ("while1", "while1"), ("while1", "end")])
        "start" "end" [] = [["start", "while1", "end"]] :=
  claim_c2_amended_single_path "while x < 10:".data
    ["    print(x)".data, "    x = x + 1".data] (by decide) (by decide)

/-- Counterexample to claim C2 as stated: on the Scenario 4 source the
path enumerator returns a single path, not a loop-skipped path plus a
synthetic loop-executed path. -/
theorem claim_c2_counterexample :
    find_all_paths (build_adj_from_edges
        (generate_cfg (build_listM whileLines)).2.1) "start" "end" [] =
      [["start", "while1", "end"]] ∧
    (find_all_paths (build_adj_from_edges
        (generate_cfg (build_listM whileLines)).2.1)
        "start" "end" []).length = 1 := by
  constructor <;> (rw [find_all_paths_eq_fuel]; decide)

/-- Claim C8: a source with no recognized keyword line flows through the
whole pipeline without error: the labeler returns exactly start, end;
the edge generator returns those two nodes and the single start-to-end
edge; path enumeration returns exactly the one path through them. -/
theorem claim_c8_no_keyword_pipeline (lines : List (List Char))
    (h : ∀ l ∈ lines, extract_keyword l = none) :
    build_listM lines = ["start", "end"] ∧
    generate_cfg ["start", "end"] =
      (["start", "end"], [("start", "end")], []) ∧
    find_all_paths (build_adj_from_edges [("start", "end")])
      "start" "end" [] = [["start", "end"]] := by
  refine ⟨?_, by decide, by rw [find_all_paths_eq_fuel]; decide⟩
  rw [build_listM, buildAuxS_no_kw lines 0 [] h]
  rfl

/-- Witness for claim C8 at a concrete keyword-free source. -/
theorem claim_c8_witness :
    build_listM ["print(hello)".data] = ["start", "end"] ∧
    generate_cfg ["start", "end"] =
      (["start", "end"], [("start", "end")], []) ∧
    find_all_paths (build_adj_from_edges [("start", "end")])
      "start" "end" [] = [["start", "end"]] :=
  claim_c8_no_keyword_pipeline ["print(hello)".data] (by decide)

end CFG

namespace CFG

/-- Counterexample to claim C1 as stated: the Scenario 1 edge list has
eleven edges, not ten (the listed ten plus the always-emitted start
edge), so the cyclomatic complexity is not three. -/
theorem claim_c1_counterexample :
    (generate_cfg (build_listM scenario1Lines)).2.1.length ≠ 10 ∧
    cyclomatic (generate_cfg (build_listM scenario1Lines)).2.1.length
      (generate_cfg (build_listM scenario1Lines)).1.length ≠ 3 := by
  decide

/-- Claim C1 (amended): on the Scenario 1 source the labeler returns
exactly the nine labels start, if1, ifexp1, elif2, elifexp2, elif3,
elifexp3, else4, end; the edge generator returns those nine nodes and
exactly eleven edges, namely the ten pairs listed by the specification
plus the start edge (start, if1), giving cyclomatic complexity
11 - 9 + 2 = 4. -/
theorem claim_c1_amended_scenario1 :
    build_listM scenario1Lines =
      ["start", "if1", "ifexp1", "elif2", "elifexp2", "elif3", "elifexp3",
       "else4", "end"] ∧
    (generate_cfg (build_listM scenario1Lines)).1 =
      ["start", "if1", "ifexp1", "elif2", "elifexp2", "elif3", "elifexp3",
       "else4", "end"] ∧
    (generate_cfg (build_listM scenario1Lines)).2.1 =
      [("start", "if1"), ("if1", "ifexp1"), ("if1", "elif2"),
       ("ifexp1", "end"), ("elif2", "elifexp2"), ("elif2", "elif3"),
       ("elifexp2", "end"), ("elif3", "elifexp3"), ("elif3", "else4"),
       ("elifexp3", "end"), ("else4", "end")] ∧
    (generate_cfg (build_listM scenario1Lines)).1.length = 9 ∧
    (generate_cfg (build_listM scenario1Lines)).2.1.length = 11 ∧
    cyclomatic 11 9 = 4 := by
  refine ⟨by decide, by decide, by decide, by decide, by decide, by decide⟩

/-- Counterexample to claim C3 as stated: with destination t distinct
from the literal label end, the back-edge branch does not produce the
synthetic path prefix + [node, dest]; the enumerator returns only the
direct path. -/
theorem claim_c3_counterexample :
    find_all_paths [("s", ["n", "t"]), ("n", ["s"])] "s" "t" [] =
      [["s", "t"]] ∧
    ["s", "n", "s", "t"] ∉
      find_all_paths [("s", ["n", "t"]), ("n", ["s"])] "s" "t" [] := by
  constructor <;> (rw [find_all_paths_eq_fuel]; decide)

/-- Claim C3 (amended): the back-edge branch of find_all_paths never
consults the dest parameter: its synthetic-path test compares each
successor against the node itself (self-loop, stop) and against the
literal label "end".  Consequently, whenever every successor of the
source lies in the extended prefix, the result is identical for any two
destinations distinct from the source. -/
theorem claim_c3_amended_backedge_ignores_dest
    (d : List (String × List String)) (source dest dest2 : String)
    (path : List String) (h1 : source ≠ dest) (h2 : source ≠ dest2)
    (hall : ∀ node ∈ dGet d source, node ∈ path ++ [source]) :
    find_all_paths d source dest path =
      find_all_paths d source dest2 path := by
  rw [find_all_paths_eq, find_all_paths_eq, if_neg h1, if_neg h2]
  apply List.flatMap_congr
  intro node hnode
  rw [if_pos (hall node hnode), if_pos (hall node hnode)]

/-- Witness for claim C3 (amended) on a one-node self-loop graph. -/
theorem claim_c3_amended_witness :
    ("a" : String) ≠ "b" ∧ ("a" : String) ≠ "c" ∧
    (∀ node ∈ dGet [("a", ["a"])] "a",
      node ∈ ([] : List String) ++ ["a"]) ∧
    find_all_paths [("a", ["a"])] "a" "b" [] =
      find_all_paths [("a", ["a"])] "a" "c" [] :=
  ⟨by decide, by decide, by decide,
   claim_c3_amended_backedge_ignores_dest [("a", ["a"])] "a" "b" "c" []
     (by decide) (by decide) (by decide)⟩

/-- Counterexample to claim C4 as stated: inserting the non-keyword
non-blank line x = 1 between two if lines pops the nesting stack, so the
inner if is labeled non-nested (if2/ifexp2) instead of nested
(ifsp2/ifspexp2): the labeler output for the remaining lines changes. -/
theorem claim_c4_counterexample :
    stripL "x = 1".data ≠ [] ∧
    extract_keyword "x = 1".data = none ∧
    build_listM ["if a:".data, "x = 1".data, "        if b:".data] =
      ["start", "if1", "ifexp1", "if2", "ifexp2", "end"] ∧
    build_listM ["if a:".data, "        if b:".data] =
      ["start", "if1", "ifexp1", "ifsp2", "ifspexp2", "end"] ∧
    build_listM ["if a:".data, "x = 1".data, "        if b:".data] ≠
      build_listM ["if a:".data, "        if b:".data] := by
  refine ⟨by decide, by decide, by decide, by decide, by decide⟩

/-- Claim C4 (amended): a non-blank line matching no recognized keyword
advances neither the global counter nor the emitted label sequence, but
it does pop the nesting stack (all entries whose recorded depth is at
least its indentation) before being skipped, which can change the
nesting status, and hence the labels, of subsequent keyword lines. -/
theorem claim_c4_amended_non_keyword_pops (line : List Char)
    (rest : List (List Char)) (count : Nat) (stack : List (Nat × String))
    (hnb : stripL line ≠ []) (hkw : extract_keyword line = none) :
    buildAuxS (line :: rest) count stack =
      buildAuxS rest count (popGE (indent_level line) stack) := by
  simp [buildAuxS, buildStep, hnb, hkw]

/-- Witness for claim C4 (amended) at a concrete non-keyword line. -/
theorem claim_c4_amended_witness :
    stripL "x = 1".data ≠ [] ∧
    extract_keyword "x = 1".data = none ∧
    buildAuxS ["x = 1".data, "if a:".data] 0 [(0, "while1")] =
      buildAuxS ["if a:".data] 0
        (popGE (indent_level "x = 1".data) [(0, "while1")]) :=
  ⟨by decide, by decide,
   claim_c4_amended_non_keyword_pops "x = 1".data ["if a:".data] 0
     [(0, "while1")] (by decide) (by decide)⟩

/-- Counterexample to claim C5 as stated: on a source whose nested while
falls inside the recorded range of an earlier non-nested while, the edge
generator emits an edge to the synthetic marker f, which is not a member
of the node list, so the edge set is not a subset of node x node. -/
theorem claim_c5_counterexample :
    ("whilesp3", "f") ∈ (generate_cfg (build_listM nestedWhileLines)).2.1 ∧
    "f" ∉ (generate_cfg (build_listM nestedWhileLines)).1 := by
  refine ⟨by decide, by decide⟩

/-- Witness for claim C5 (amended): the property instantiated on the
Scenario 4 label sequence at its self-loop edge. -/
theorem claim_c5_amended_witness :
    (generate_cfg ["start", "while1", "end"]).2.1.Nodup ∧
    (("while1", "while1").1 ∈ (generate_cfg ["start", "while1", "end"]).1 ∧
      (("while1", "while1").2 ∈ (generate_cfg ["start", "while1", "end"]).1 ∨
        ("while1", "while1").2 = "end" ∨ ("while1", "while1").2 = "f")) :=
  ⟨(claim_c5_amended_edges ["start", "while1", "end"]).1,
   (claim_c5_amended_edges ["start", "while1", "end"]).2
     ("while1", "while1") (by decide)⟩

/-- Witness for claim C10 on a three-label sequence. -/
theorem claim_c10_witness :
    (("a", "end") : String × String).2 ≠ "start" ∧
    (("a", "end") : String × String).1 ≠ "end" :=
  claim_c10_start_source_end_sink ["start", "a", "end"]
    (by decide) (by decide) ("a", "end") (by decide)

end CFG
